import Mathlib

/-!
Verification of the update-decision and transfer engine of the updatechecker
repository against its specification.  The definitions below are shallow
embeddings of the Python source: pure functions become Lean functions, the
effectful pipeline steps become explicit state passing over small environment
records, and fallible operations return Option or Except values.
-/

/-- Embeds constants.DEFAULT_CHUNK_SIZE, 10 MiB in bytes. -/
def DEFAULT_CHUNK_SIZE : Nat := 10 * 1024 * 1024

/-- Embeds HttpDownloader.calculate_chunks (downloader/http.py).  The Python
code returns an empty list for a non-positive size, a single range for a size
not exceeding the chunk size, and otherwise one inclusive range per chunk
index below the rounded-up chunk count.  Sizes are natural numbers here, so
the non-positive guard becomes a zero test. -/
def calculate_chunks (file_size chunk_size : Nat) : List (Nat × Nat) :=
  if file_size = 0 then []
  else if file_size ≤ chunk_size then [(0, file_size - 1)]
  else
    (List.range ((file_size + chunk_size - 1) / chunk_size)).map
      (fun i => (i * chunk_size, min (i * chunk_size + chunk_size - 1) (file_size - 1)))

/-- Decides whether the character list hay begins with the character list
needle; used to embed the Python substring operator. -/
def starts_with_chars : List Char → List Char → Bool
  | _, [] => true
  | [], _ :: _ => false
  | h :: hs, n :: ns => h == n && starts_with_chars hs ns

/-- Decides whether needle occurs contiguously anywhere inside hay; this is
the meaning of the Python expression needle in hay for strings. -/
def contains_chars : List Char → List Char → Bool
  | [], needle => needle.isEmpty
  | h :: t, needle => starts_with_chars (h :: t) needle || contains_chars t needle

/-- Embeds is_filename_archive (common_tools.py): the Python code tests
whether any of the three extension strings occurs as a substring of the
filename. -/
def is_filename_archive (filename : String) : Bool :=
  [".zip", ".7z", ".rar"].any (fun ext => contains_chars filename.data ext.data)

/-- Snapshot of the identity headers of a remote artifact, as produced by
get_url_headers (common_tools.py): each field is absent when the server does
not send the header. -/
structure RemoteHeaders where
  etag : Option String
  last_modified : Option String
  content_length : Option Nat
deriving DecidableEq

/-- Persisted sidecar record, as read back by load_metadata: the source url
together with the headers stored at save time. -/
structure CachedMetadata where
  url : String
  headers : RemoteHeaders
deriving DecidableEq

/-- Python truthiness of an optional string: a missing value and the empty
string are both falsy. -/
def py_truthy_str (s : Option String) : Bool :=
  match s with
  | none => false
  | some v => !(v == "")

/-- Python truthiness of an optional integer: a missing value and zero are
both falsy. -/
def py_truthy_nat (n : Option Nat) : Bool :=
  match n with
  | none => false
  | some v => !(v == 0)

/-- Embeds the header comparison of file_needs_update (common_tools.py):
three nested truthiness guards in priority order ETag, Last-Modified,
Content-Length, each returning the inequality of the pair, and None when no
guard fires. -/
def compare_cached_headers (cached current : RemoteHeaders) : Option Bool :=
  if py_truthy_str current.etag && py_truthy_str cached.etag then
    some (current.etag != cached.etag)
  else if py_truthy_str current.last_modified && py_truthy_str cached.last_modified then
    some (current.last_modified != cached.last_modified)
  else if py_truthy_nat current.content_length && py_truthy_nat cached.content_length then
    some (current.content_length != cached.content_length)
  else none

/-- Returns the decision of the first field marked comparable: for a pair of
booleans (comparable, equal) the result is the negated equality of the first
comparable pair, and none when no pair is comparable. -/
def first_decisive (fields : List (Bool × Bool)) : Option Bool :=
  match fields.find? (fun p => p.1) with
  | none => none
  | some p => some (!p.2)

/-- Comparison procedure written from the words of claim C2: stop at the
first field present on both sides, where presence is having a value at all. -/
def claim_compare_headers (cached current : RemoteHeaders) : Option Bool :=
  first_decisive
    [(current.etag.isSome && cached.etag.isSome,
        current.etag == cached.etag),
     (current.last_modified.isSome && cached.last_modified.isSome,
        current.last_modified == cached.last_modified),
     (current.content_length.isSome && cached.content_length.isSome,
        current.content_length == cached.content_length)]

/-- Comparison procedure of the amended claim C2: stop at the first field
that is truthy on both sides, where a present empty string and a present
zero length count as absent, exactly as the Python truthiness guards do. -/
def truthy_compare_headers (cached current : RemoteHeaders) : Option Bool :=
  first_decisive
    [(py_truthy_str current.etag && py_truthy_str cached.etag,
        current.etag == cached.etag),
     (py_truthy_str current.last_modified && py_truthy_str cached.last_modified,
        current.last_modified == cached.last_modified),
     (py_truthy_nat current.content_length && py_truthy_nat cached.content_length,
        current.content_length == cached.content_length)]

/-- Embeds file_needs_update (common_tools.py) as found under src: the
network and filesystem are abstracted into explicit inputs.  target_exists
tells whether the target file exists, cached is the loaded sidecar record,
and head_result is the outcome of the HEAD request.  The function in src
takes no content-length-check parameter: with the target present and no
cached metadata it returns True without consulting the remote side. -/
def file_needs_update (url : String) (target_exists : Bool)
    (cached : Option CachedMetadata) (head_result : Option RemoteHeaders) : Option Bool :=
  if !target_exists then some true
  else
    match cached with
    | none => some true
    | some c =>
      if c.url != url then some true
      else
        match head_result with
        | none => none
        | some current => compare_cached_headers c.headers current

/-- Sequential batch loop of updatechecker (updatechecker.py): entries are
processed in order and an exception aborts the loop, so the result is the
list of completed entries together with the escaping error, if any. -/
def run_batch_seq {α ε β : Type} (f : α → Except ε β) : List α → List (α × β) × Option ε
  | [] => ([], none)
  | a :: rest =>
    match f a with
    | Except.error e => ([], some e)
    | Except.ok b =>
      let r := run_batch_seq f rest
      ((a, b) :: r.1, r.2)

/-- Tests whether an Except value is a success. -/
def except_is_ok {ε β : Type} : Except ε β → Bool
  | Except.ok _ => true
  | Except.error _ => false

/-- Parallel batch of updatechecker (updatechecker.py): executor.map submits
every entry to a bounded worker pool and list() consumes the results in
submission order.  The entries before the first failing one run to
completion and their results are collected.  When a result raises, list()
propagates the exception and the map result iterator cancels every future
that has not yet started, so an entry after the first failing one runs only
if the pool had already begun its future; the started oracle models that
scheduling choice, which the source leaves to the pool.  The failing entry
itself did run and raised; the outcomes of entries after it are never
collected and their own errors never re-raised. -/
def run_batch_async {α ε β : Type} (f : α → Except ε β) (started : α → Bool)
    (entries : List α) : List (α × β) × Option ε :=
  ((entries.takeWhile (fun a => except_is_ok (f a))).filterMap (fun a =>
      match f a with
      | Except.ok b => some (a, b)
      | Except.error _ => none) ++
   ((entries.dropWhile (fun a => except_is_ok (f a))).drop 1).filterMap (fun a =>
      if started a then
        match f a with
        | Except.ok b => some (a, b)
        | Except.error _ => none
      else none),
   entries.findSome? (fun a =>
      match f a with
      | Except.error e => some e
      | Except.ok _ => none))

/-- Embeds the batch dispatch of updatechecker (updatechecker.py): the async
flag selects between the thread pool and the plain loop; the started oracle
is consumed only by the parallel mode. -/
def updatechecker_batch {α ε β : Type} (asyncMode : Bool) (f : α → Except ε β)
    (started : α → Bool) (entries : List α) : List (α × β) × Option ε :=
  if asyncMode then run_batch_async f started entries else run_batch_seq f entries

/-- Concrete batch function for the claim C4 instances: entry 0 always
raises, every other entry succeeds. -/
def c4_fail_first (n : Nat) : Except String Nat :=
  if n = 0 then Except.error "boom" else Except.ok n

/-- Value of the kill_if_locked entry field: the pydantic model defaults it
to False, a YAML null gives None, and a configured capability is a path
string. -/
inductive KillCfg
  | pyNone
  | pyFalse
  | exePath (p : String)
deriving DecidableEq

/-- Entry fields consumed by the replace stage of process_entry
(updatechecker.py). -/
structure EntryCfg where
  url : String
  md5_url : Option String
  launch : Option String
  kill_if_locked : KillCfg
  relaunch : Bool

/-- Abstraction of the outside world seen by one run of process_entry:
whether the target exists, what the staleness oracle would answer, the
hashes on both sides, the token served by a configured md5 url, whether the
backup rename succeeds, whether iterating processes reaches a readable
executable path, and which executable paths are running. -/
structure PipelineEnv where
  target_exists : Bool
  staleness : Option Bool
  target_md5 : String
  remote_md5 : String
  md5_url_token : String
  rename_ok : Bool
  procs_have_exe : Bool
  proc_running_at : String → Bool

/-- Terminal outcome of one run of process_entry. -/
inductive POutcome
  | freshDownload
  | upToDate
  | noChangeMd5
  | replaced
  | lockedAbortWarning
  | raisedTypeError
deriving DecidableEq

/-- Observable effects of one run of process_entry. -/
structure PipelineResult where
  outcome : POutcome
  reached_replace : Bool
  target_replaced : Bool
  metadata_refreshed : Bool
  killed : Bool
deriving DecidableEq

/-- Embeds the decision flow of process_entry (updatechecker.py) for an
entry without a git asset and a resolvable filename.  With force the
staleness answer is fixed to True without consulting the oracle, and the
md5 no-change exit is skipped.  In the replace stage a failed rename
returns with a warning only when kill_if_locked is None; with the default
False the code calls process_running with exe_path False, and building a
Path from False raises a TypeError as soon as a process exposes a readable
executable path. -/
def process_entry_model (force : Bool) (e : EntryCfg) (env : PipelineEnv) : PipelineResult :=
  let needs_update : Option Bool := if force then some true else env.staleness
  if env.target_exists = false then
    ⟨POutcome.freshDownload, false, true, true, false⟩
  else if needs_update == some false then
    ⟨POutcome.upToDate, false, false, false, false⟩
  else
    let no_change : Bool :=
      if force then false
      else if needs_update == none then
        match e.md5_url with
        | none => env.target_md5 == env.remote_md5
        | some _ => env.target_md5 == env.md5_url_token
      else
        match e.md5_url with
        | none => false
        | some _ => env.target_md5 == env.md5_url_token
    if no_change then ⟨POutcome.noChangeMd5, false, false, true, false⟩
    else if env.rename_ok then
      ⟨POutcome.replaced, true, true, true, false⟩
    else
      match e.kill_if_locked with
      | KillCfg.pyNone => ⟨POutcome.lockedAbortWarning, true, false, false, false⟩
      | KillCfg.pyFalse =>
        if env.procs_have_exe then ⟨POutcome.raisedTypeError, true, false, false, false⟩
        else ⟨POutcome.replaced, true, true, true, false⟩
      | KillCfg.exePath p =>
        if env.proc_running_at p then ⟨POutcome.replaced, true, true, true, true⟩
        else ⟨POutcome.replaced, true, true, true, false⟩

/-- Entry with the locked target scenario of claim C5 and the default
kill_if_locked value False, as an unconfigured entry has. -/
def c5_entry_default : EntryCfg :=
  ⟨"http://host/file.zip", none, none, KillCfg.pyFalse, false⟩

/-- Same entry with kill_if_locked explicitly null in the YAML, which is the
only value taking the warning branch of the source. -/
def c5_entry_null : EntryCfg :=
  ⟨"http://host/file.zip", none, none, KillCfg.pyNone, false⟩

/-- Environment of claim C5: the target exists, the oracle answers True,
the hashes differ, the backup rename fails because the file is locked, and
process iteration reaches a readable executable path. -/
def c5_env : PipelineEnv :=
  ⟨true, some true, "aaa", "bbb", "", false, true, fun _ => false⟩

/-- Decimal digit character, offset 48 is the code of the zero digit. -/
def dec_digit_char (n : Nat) : Char := Char.ofNat (48 + n)

/-- Fuelled decimal digit expansion; the fuel argument only bounds the
recursion depth and any fuel above the value is exact. -/
def dec_digits_aux : Nat → Nat → List Char
  | 0, _ => []
  | fuel + 1, n =>
    if n < 10 then [dec_digit_char n]
    else dec_digits_aux fuel (n / 10) ++ [dec_digit_char (n % 10)]

/-- Decimal digit characters of a natural number, most significant first. -/
def dec_digits (n : Nat) : List Char := dec_digits_aux (n + 1) n

/-- Embeds the Python format specifier 04d: the decimal digits, left padded
with zero characters to a width of four. -/
def py_format04 (n : Nat) : String :=
  ⟨List.replicate (4 - (dec_digits n).length) (dec_digit_char 0) ++ dec_digits n⟩

/-- Embeds the temporary chunk file name chunk_ followed by the chunk index
formatted with 04d, from download_chunk (downloader/http.py). -/
def chunk_file_name (i : Nat) : String :=
  ⟨("chunk_").data ++ (py_format04 i).data⟩

/-- Numeric value of a character list read as decimal digits. -/
def dec_val (cs : List Char) : Nat :=
  cs.foldl (fun acc c => acc * 10 + (c.toNat - 48)) 0

/-- Strict lexicographic order on character lists by code point; this is how
Python compares path strings when sorted() is applied to the chunk files. -/
def chars_lt : List Char → List Char → Bool
  | [], [] => false
  | [], _ :: _ => true
  | _ :: _, [] => false
  | a :: as, b :: bs =>
    if a.toNat < b.toNat then true
    else if b.toNat < a.toNat then false
    else chars_lt as bs

/-- Non-strict string comparison derived from the strict one, used as the
sorting predicate. -/
def py_str_le (a b : String) : Bool := !(chars_lt b.data a.data)

/-- Embeds combine_chunks together with its _cleanup_chunk_files call
(downloader/http.py): a chunk file is a pair of path name and byte content,
the destination content is the concatenation of the contents in ascending
path name order as produced by sorted(), and the second component lists the
file names deleted afterwards, which is every chunk file handed in. -/
def combine_chunks (chunk_files : List (String × List Nat)) : List Nat × List String :=
  (((chunk_files.mergeSort (fun a b => py_str_le a.1 b.1)).map Prod.snd).flatten,
   chunk_files.map Prod.fst)

/-- Chunk files produced from a correct partition of a byte sequence, as the
chunk workers of _download_parallel produce them: for every pair of chunk
index and inclusive range of calculate_chunks, a file named after the index
holding exactly the bytes of that range. -/
def partition_files (original : List Nat) (cs : Nat) : List (String × List Nat) :=
  (calculate_chunks original.length cs).enum.map
    (fun p => (chunk_file_name p.1, (original.drop p.2.1).take (p.2.2 - p.2.1 + 1)))

/-- Byte pair encoding a chunk index, used by the claim C8 instance. -/
def ex8_pair (i : Nat) : List Nat := [i / 256, i % 256]

/-- Byte sequence of the claim C8 instance: 10001 chunks of two bytes. -/
def ex8_original : List Nat := ((List.range 10001).map ex8_pair).flatten

/-- Chunk file of index i for the claim C8 instance. -/
def ex8_file (i : Nat) : String × List Nat := (chunk_file_name i, ex8_pair i)

/-- Chunk file list of the claim C8 instance in index order. -/
def ex8_files : List (String × List Nat) := (List.range 10001).map ex8_file

/-- Network behaviour of one chunk worker of _download_parallel: a normal
completion with the body bytes, a mid-stream failure after some bytes were
already written to the chunk file, or a failure before the chunk file was
created, as raise_for_status produces. -/
inductive ChunkNet
  | ok (bytes : List Nat)
  | failMid (already : List Nat)
  | failEarly

/-- Bytes a worker leaves in its temporary chunk file, none when the file
was never created. -/
def chunk_written : ChunkNet → Option (List Nat)
  | ChunkNet.ok b => some b
  | ChunkNet.failMid w => some w
  | ChunkNet.failEarly => none

/-- Bytes of a successful worker, none on any failure. -/
def chunk_ok_bytes : ChunkNet → Option (List Nat)
  | ChunkNet.ok b => some b
  | ChunkNet.failMid _ => none
  | ChunkNet.failEarly => none

/-- Temporary chunk files present on disk after every worker has run: the
executor joins all submitted workers, so each one writes its file according
to its own network behaviour, regardless of the others. -/
def written_chunk_files (net : Nat → ChunkNet) (n : Nat) : List (String × List Nat) :=
  (List.range n).filterMap
    (fun i => (chunk_written (net i)).map (fun b => (chunk_file_name i, b)))

/-- Result collection loop of _download_parallel: futures are consumed in
index order, successful chunk files are accumulated, and the first failure
returns the accumulated list for cleanup. -/
def collect_chunk_results (net : Nat → ChunkNet) :
    List Nat → List (String × List Nat) →
    Except (List (String × List Nat)) (List (String × List Nat))
  | [], acc => Except.ok acc
  | i :: rest, acc =>
    match chunk_ok_bytes (net i) with
    | some b => collect_chunk_results net rest (acc ++ [(chunk_file_name i, b)])
    | none => Except.error acc

/-- Observable result of one _download_parallel invocation: the destination
content, the temporary chunk files still on disk afterwards, whether the job
demoted to single stream, the ranged requests issued, and how many full
downloads were performed. -/
structure ParallelResult where
  dest : List Nat
  leftover : List (String × List Nat)
  demoted : Bool
  range_requests : List (Nat × Nat)
  full_requests : Nat

/-- Files whose names are not in the deleted list. -/
def files_minus (files : List (String × List Nat)) (names : List String) :
    List (String × List Nat) :=
  files.filter (fun f => !(names.contains f.1))

/-- Embeds _download_parallel (downloader/http.py): one ranged request per
chunk, all workers run to completion, results are collected in index order;
on the first observed failure the collected chunk files are cleaned up and
a single full download of the same url is returned, with no per-chunk retry;
on success the chunks are combined and every chunk file deleted. -/
def download_parallel_model (file_size chunk_size : Nat) (net : Nat → ChunkNet)
    (single_result : List Nat) : ParallelResult :=
  let chunks := calculate_chunks file_size chunk_size
  let n := chunks.length
  let written := written_chunk_files net n
  match collect_chunk_results net (List.range n) [] with
  | Except.ok chunk_files =>
    let combined := combine_chunks chunk_files
    ⟨combined.1, files_minus written combined.2, false, chunks, 0⟩
  | Except.error cleaned =>
    ⟨single_result, files_minus written (cleaned.map Prod.fst), true, chunks, 1⟩

/-- Network behaviour of the claim C6 counterexample: chunk 0 succeeds,
chunk 1 fails before its file is created, chunk 2 succeeds. -/
def c6_net (i : Nat) : ChunkNet :=
  if i = 0 then ChunkNet.ok [7]
  else if i = 1 then ChunkNet.failEarly
  else ChunkNet.ok [9]

/-- Network behaviour of the claim C6 witness: every chunk fails early. -/
def c6_witness_net (_ : Nat) : ChunkNet := ChunkNet.failEarly

/-- Transfer strategy chosen by the engine. -/
inductive Strategy
  | single
  | chunked
deriving DecidableEq

/-- Embeds the auto-detection of download_file_from_url (downloader/http.py):
an explicit chunked_download value is passed through, otherwise the size
probe decides, with an unknown size meaning no chunking. -/
def auto_should_chunk (chunked_download : Option Bool) (size_probe : Option Nat) : Bool :=
  match chunked_download with
  | some b => b
  | none =>
    match size_probe with
    | some fs => decide (DEFAULT_CHUNK_SIZE ≤ fs)
    | none => false

/-- Embeds the strategy decision of _download_with_httpx (downloader/http.py):
the size is probed again, an unknown size forces single stream, a size below
the chunk size or a missing range support also forces single stream, and
only then is the parallel path taken.  Probe failures surface as a missing
size or a false range support, never as an exception. -/
def download_with_httpx_strategy (chunked : Bool) (size_probe : Option Nat)
    (ranges_ok : Bool) (chunk_size : Nat) : Strategy :=
  match size_probe with
  | none => Strategy.single
  | some fs =>
    if !chunked || fs < chunk_size then Strategy.single
    else if !ranges_ok then Strategy.single
    else Strategy.chunked

/-- Full strategy selection of one download_file_from_url invocation: the
auto-detected flag is handed to _download_with_httpx; both size probes hit
the same url in the same environment and therefore return the same value. -/
def select_strategy (chunked_download : Option Bool) (size_probe : Option Nat)
    (ranges_ok : Bool) (chunk_size : Nat) : Strategy :=
  download_with_httpx_strategy (auto_should_chunk chunked_download size_probe)
    size_probe ranges_ok chunk_size

/-!  Helper lemmas about the chunk partition. -/

theorem calculate_chunks_num (fs cs : Nat) (hfs : 0 < fs) (hcs : 0 < cs) :
    (fs + cs - 1) / cs = (fs - 1) / cs + 1 := by
  have h : fs + cs - 1 = (fs - 1) + cs := by omega
  rw [h, Nat.add_div_right _ hcs]

theorem calculate_chunks_eq_map (fs cs : Nat) (hfs : 0 < fs) (hcs : 0 < cs) :
    calculate_chunks fs cs =
      (List.range ((fs + cs - 1) / cs)).map
        (fun i => (i * cs, min (i * cs + cs - 1) (fs - 1))) := by
  unfold calculate_chunks
  rw [if_neg (by omega)]
  by_cases h : fs ≤ cs
  · rw [if_pos h]
    have h0 : (fs - 1) / cs = 0 := Nat.div_eq_of_lt (by omega)
    have hn : (fs + cs - 1) / cs = 1 := by
      rw [calculate_chunks_num fs cs hfs hcs, h0]
    have hr1 : List.range 1 = [0] := by decide
    rw [hn, hr1]
    simp only [List.map_cons, List.map_nil, Nat.zero_mul]
    have hmin : min (0 + cs - 1) (fs - 1) = fs - 1 := by omega
    rw [hmin]
  · rw [if_neg h]

theorem calculate_chunks_nil_iff (fs cs : Nat) (hcs : 0 < cs) :
    calculate_chunks fs cs = [] ↔ fs = 0 := by
  constructor
  · intro h
    by_contra hne
    have hfs0 : 0 < fs := Nat.pos_of_ne_zero hne
    rw [calculate_chunks_eq_map fs cs hfs0 hcs] at h
    have hlen := congrArg List.length h
    simp only [List.length_map, List.length_range, List.length_nil] at hlen
    rw [calculate_chunks_num fs cs hfs0 hcs] at hlen
    simp at hlen
  · intro h
    subst h
    simp [calculate_chunks]

theorem calculate_chunks_single (fs cs : Nat) (hfs : 0 < fs) (hle : fs ≤ cs) :
    calculate_chunks fs cs = [(0, fs - 1)] := by
  unfold calculate_chunks
  rw [if_neg (by omega), if_pos hle]

theorem calculate_chunks_chain (fs cs : Nat) (hcs : 0 < cs) :
    List.Chain' (fun a b : Nat × Nat => b.1 = a.2 + 1) (calculate_chunks fs cs) := by
  by_cases hfs : fs = 0
  · subst hfs
    simp [calculate_chunks]
  · have hfs0 : 0 < fs := Nat.pos_of_ne_zero hfs
    rw [calculate_chunks_eq_map fs cs hfs0 hcs, calculate_chunks_num fs cs hfs0 hcs,
      List.chain'_map]
    apply (List.chain'_range_succ _ _).mpr
    intro m hm
    show (m + 1) * cs = min (m * cs + cs - 1) (fs - 1) + 1
    have h1 : (m + 1) * cs ≤ fs - 1 := (Nat.le_div_iff_mul_le hcs).mp (by omega)
    have h2 : (m + 1) * cs = m * cs + cs := by ring
    have hmin : min (m * cs + cs - 1) (fs - 1) = m * cs + cs - 1 := by omega
    omega

theorem calculate_chunks_pairwise (fs cs : Nat) (hcs : 0 < cs) :
    List.Pairwise (fun a b : Nat × Nat => a.2 < b.1) (calculate_chunks fs cs) := by
  by_cases hfs : fs = 0
  · subst hfs
    simp [calculate_chunks]
  · have hfs0 : 0 < fs := Nat.pos_of_ne_zero hfs
    rw [calculate_chunks_eq_map fs cs hfs0 hcs, List.pairwise_map]
    apply List.Pairwise.imp ?_ (List.pairwise_lt_range _)
    intro i j hij
    show min (i * cs + cs - 1) (fs - 1) < j * cs
    have h1 : (i + 1) * cs ≤ j * cs := Nat.mul_le_mul_right cs (by omega)
    have h2 : (i + 1) * cs = i * cs + cs := by ring
    have h3 : min (i * cs + cs - 1) (fs - 1) ≤ i * cs + cs - 1 := Nat.min_le_left _ _
    omega

theorem calculate_chunks_cover (fs cs : Nat) (hcs : 0 < cs) (k : Nat) :
    (∃ c ∈ calculate_chunks fs cs, c.1 ≤ k ∧ k ≤ c.2) ↔ k < fs := by
  by_cases hfs : fs = 0
  · subst hfs
    simp [calculate_chunks]
  · have hfs0 : 0 < fs := Nat.pos_of_ne_zero hfs
    rw [calculate_chunks_eq_map fs cs hfs0 hcs]
    constructor
    · rintro ⟨c, hc, h1, h2⟩
      rw [List.mem_map] at hc
      obtain ⟨i, hi, rfl⟩ := hc
      have hmin : min (i * cs + cs - 1) (fs - 1) ≤ fs - 1 := Nat.min_le_right _ _
      simp only at h2
      omega
    · intro hk
      refine ⟨(k / cs * cs, min (k / cs * cs + cs - 1) (fs - 1)), ?_, ?_, ?_⟩
      · rw [List.mem_map]
        refine ⟨k / cs, ?_, rfl⟩
        rw [List.mem_range, calculate_chunks_num fs cs hfs0 hcs]
        have : k / cs ≤ (fs - 1) / cs := Nat.div_le_div_right (by omega)
        omega
      · exact Nat.div_mul_le_self k cs
      · have h1 : k < (k / cs + 1) * cs := (Nat.div_lt_iff_lt_mul hcs).mp (Nat.lt_succ_self _)
        have h2 : (k / cs + 1) * cs = k / cs * cs + cs := by ring
        apply le_min
        · omega
        · omega

/-- C1: for every file size and positive chunk size, calculate_chunks
returns inclusive ranges that are contiguous, pairwise disjoint in strictly
increasing order, and whose union is exactly the interval from 0 to
file_size - 1; the list is empty exactly when the file size is 0; one chunk
covers a file of at most one chunk size; and the 10 MiB example evaluates
as the specification states. -/
theorem c1_calculate_chunks_partition (fs cs : Nat) (hcs : 0 < cs) :
    (calculate_chunks fs cs = [] ↔ fs = 0) ∧
    (0 < fs → fs ≤ cs → calculate_chunks fs cs = [(0, fs - 1)]) ∧
    List.Chain' (fun a b => b.1 = a.2 + 1) (calculate_chunks fs cs) ∧
    List.Pairwise (fun a b => a.2 < b.1) (calculate_chunks fs cs) ∧
    (∀ k : Nat, (∃ c ∈ calculate_chunks fs cs, c.1 ≤ k ∧ k ≤ c.2) ↔ k < fs) ∧
    calculate_chunks (10 * 1024 * 1024 + 1) (10 * 1024 * 1024) =
      [(0, 10485759), (10485760, 10485760)] :=
  ⟨calculate_chunks_nil_iff fs cs hcs,
   fun h1 h2 => calculate_chunks_single fs cs h1 h2,
   calculate_chunks_chain fs cs hcs,
   calculate_chunks_pairwise fs cs hcs,
   calculate_chunks_cover fs cs hcs,
   by decide⟩

/-- Witness for C1 at file size 5 and chunk size 2. -/
theorem c1_calculate_chunks_partition_witness :
    0 < 2 ∧ List.Chain' (fun a b => b.1 = a.2 + 1) (calculate_chunks 5 2) ∧
      (∀ k : Nat, (∃ c ∈ calculate_chunks 5 2, c.1 ≤ k ∧ k ≤ c.2) ↔ k < 5) :=
  ⟨by decide, (c1_calculate_chunks_partition 5 2 (by decide)).2.2.1,
   (c1_calculate_chunks_partition 5 2 (by decide)).2.2.2.2.1⟩

/-!  Substring lemmas for the archive test. -/

theorem starts_with_chars_iff (h n : List Char) :
    starts_with_chars h n = true ↔ ∃ t, h = n ++ t := by
  induction n generalizing h with
  | nil =>
    simp [starts_with_chars]
  | cons c cs ih =>
    cases h with
    | nil => simp [starts_with_chars]
    | cons d ds =>
      simp only [starts_with_chars, Bool.and_eq_true, beq_iff_eq, ih]
      constructor
      · rintro ⟨rfl, t, rfl⟩
        exact ⟨t, rfl⟩
      · rintro ⟨t, ht⟩
        rw [List.cons_append] at ht
        injection ht with h1 h2
        exact ⟨h1, t, h2⟩

theorem contains_chars_iff (hay needle : List Char) :
    contains_chars hay needle = true ↔ ∃ s t, hay = s ++ needle ++ t := by
  induction hay with
  | nil =>
    simp only [contains_chars, List.isEmpty_iff]
    constructor
    · rintro rfl
      exact ⟨[], [], rfl⟩
    · rintro ⟨s, t, h⟩
      have h2 := h.symm
      simp only [List.append_eq_nil] at h2
      exact h2.1.2
  | cons c rest ih =>
    simp only [contains_chars, Bool.or_eq_true, starts_with_chars_iff, ih]
    constructor
    · rintro (⟨t, ht⟩ | ⟨s, t, h⟩)
      · exact ⟨[], t, by simpa using ht⟩
      · exact ⟨c :: s, t, by simp [h]⟩
    · rintro ⟨s, t, h⟩
      cases s with
      | nil =>
        left
        exact ⟨t, by simpa using h⟩
      | cons x xs =>
        right
        rw [List.cons_append, List.cons_append] at h
        injection h with h1 h2
        exact ⟨xs, t, h2⟩

/-- C10: is_filename_archive answers true exactly when one of the three
archive extension strings occurs anywhere as a contiguous substring of the
filename, not only as its final extension; the name app.zip.backup is
classified as an archive and setup.exe is not. -/
theorem c10_is_filename_archive_substring (filename : String) :
    (is_filename_archive filename = true ↔
      ((∃ s t, filename.data = s ++ (".zip").data ++ t) ∨
       (∃ s t, filename.data = s ++ (".7z").data ++ t) ∨
       (∃ s t, filename.data = s ++ (".rar").data ++ t))) ∧
    is_filename_archive "app.zip.backup" = true ∧
    is_filename_archive "setup.exe" = false := by
  refine ⟨?_, by decide, by decide⟩
  simp only [is_filename_archive, List.any_cons, List.any_nil, Bool.or_false,
    Bool.or_eq_true, contains_chars_iff]

/-!  The staleness comparison. -/

theorem compare_cached_headers_eq_truthy (cached current : RemoteHeaders) :
    compare_cached_headers cached current = truthy_compare_headers cached current := by
  unfold compare_cached_headers truthy_compare_headers first_decisive
  cases h1 : py_truthy_str current.etag && py_truthy_str cached.etag <;>
    cases h2 : py_truthy_str current.last_modified && py_truthy_str cached.last_modified <;>
      cases h3 : py_truthy_nat current.content_length && py_truthy_nat cached.content_length <;>
        simp [h1, h2, h3, List.find?, bne]

/-- C2 counterexample: a cached and a live descriptor that both carry only a
content length of zero are present on both sides, so the claim as stated
decides False, while the source treats a zero length as falsy, skips the
comparison and returns Unknown. -/
theorem c2_counterexample :
    file_needs_update "http://host/f" true
        (some ⟨"http://host/f", ⟨none, none, some 0⟩⟩)
        (some ⟨none, none, some 0⟩) = none ∧
    claim_compare_headers ⟨none, none, some 0⟩ ⟨none, none, some 0⟩ = some false := by
  decide

/-- C2 (amended): with a cached descriptor whose url matches and a fresh
descriptor obtained, the staleness check stops at the first header field
that is truthy on both sides, in the order ETag, Last-Modified,
Content-Length, answering the inequality of that field, and Unknown when no
field is truthy on both sides. -/
theorem c2_first_truthy_field_decides (url : String) (c : CachedMetadata)
    (current : RemoteHeaders) (hurl : c.url = url) :
    file_needs_update url true (some c) (some current) =
      truthy_compare_headers c.headers current := by
  unfold file_needs_update
  simp [hurl, compare_cached_headers_eq_truthy]

/-- Witness for the amended C2 at a concrete descriptor pair with differing
ETag values. -/
theorem c2_first_truthy_field_decides_witness :
    file_needs_update "u" true
        (some ⟨"u", ⟨some "a", none, some 3⟩⟩) (some ⟨some "b", none, some 3⟩) =
      truthy_compare_headers ⟨some "a", none, some 3⟩ ⟨some "b", none, some 3⟩ :=
  c2_first_truthy_field_decides "u" ⟨"u", ⟨some "a", none, some 3⟩⟩
    ⟨some "b", none, some 3⟩ rfl

/-- C3: the file_needs_update found under src takes no content length check
parameter; whenever the target exists and the cached metadata is absent it
returns True without consulting the remote side at all, so at the scenario
of the repository tests, local size 1000 and remote content length 1000, it
answers True where the tests and the claim require False with persisted
metadata. -/
theorem c3_no_metadata_ignores_content_length (head_result : Option RemoteHeaders) :
    file_needs_update "https://example.com/file.zip" true none head_result = some true ∧
    file_needs_update "https://example.com/file.zip" true none
        (some ⟨none, none, some 1000⟩) = some true :=
  ⟨rfl, rfl⟩

/-!  Batch scheduling. -/

theorem run_batch_seq_completed {α ε β : Type} (f : α → Except ε β) (entries : List α) :
    (run_batch_seq f entries).1.map Prod.fst =
      entries.takeWhile (fun a => except_is_ok (f a)) := by
  induction entries with
  | nil => rfl
  | cons a rest ih =>
    cases hfa : f a with
    | error e =>
      simp [run_batch_seq, hfa, List.takeWhile_cons, except_is_ok]
    | ok b =>
      simp [run_batch_seq, hfa, List.takeWhile_cons, except_is_ok, ih]

theorem run_batch_seq_error {α ε β : Type} (f : α → Except ε β) (entries : List α) :
    (run_batch_seq f entries).2 = none ↔ ∀ a ∈ entries, except_is_ok (f a) = true := by
  induction entries with
  | nil => simp [run_batch_seq]
  | cons a rest ih =>
    cases hfa : f a with
    | error e =>
      simp [run_batch_seq, hfa, except_is_ok]
    | ok b =>
      simp [run_batch_seq, hfa, except_is_ok, ih]

/-- C4 counterexample: entry 1 succeeds on its own, yet with entry 0 failing
first the completed list is empty and the error escapes the batch uncaught,
in both modes: the sequential loop stops at the failure, and in parallel
mode the schedule in which the future of entry 1 has not started when the
escaping exception cancels the pending futures leaves it unprocessed. -/
theorem c4_counterexample :
    except_is_ok (c4_fail_first 1) = true ∧
    (updatechecker_batch false c4_fail_first (fun _ => false) [0, 1]).1 = [] ∧
    (updatechecker_batch false c4_fail_first (fun _ => false) [0, 1]).2 = some "boom" ∧
    (updatechecker_batch true c4_fail_first (fun _ => false) [0, 1]).1 = [] ∧
    (updatechecker_batch true c4_fail_first (fun _ => false) [0, 1]).2 = some "boom" := by
  decide

/-- C4 (amended): a failing entry never has its exception caught by the
batch runner: the error component of the run is empty exactly when every
entry succeeds, in both modes.  The entries before the first failing one
are processed to completion in both modes.  The entries after it are not
processed at all in sequential mode, and in the default parallel mode they
are processed only if their future had already started when the escaping
exception cancelled the pending futures of the bounded pool, so none of
them is guaranteed to run: under the schedule in which no later future has
started, the parallel run completes exactly the prefix before the first
failure. -/
theorem c4_batch_error_propagation {α ε β : Type} (f : α → Except ε β)
    (started : α → Bool) (entries : List α) :
    ((updatechecker_batch true f started entries).2 = none ↔
        ∀ a ∈ entries, except_is_ok (f a) = true) ∧
    (∀ a b, a ∈ entries.takeWhile (fun x => except_is_ok (f x)) → f a = Except.ok b →
        (a, b) ∈ (updatechecker_batch true f started entries).1) ∧
    ((updatechecker_batch true f (fun _ => false) entries).1 =
        (entries.takeWhile (fun x => except_is_ok (f x))).filterMap (fun a =>
          match f a with
          | Except.ok b => some (a, b)
          | Except.error _ => none)) ∧
    ((updatechecker_batch false f started entries).1.map Prod.fst =
        entries.takeWhile (fun x => except_is_ok (f x))) ∧
    ((updatechecker_batch false f started entries).2 = none ↔
        ∀ a ∈ entries, except_is_ok (f a) = true) := by
  refine ⟨?_, ?_, ?_, run_batch_seq_completed f entries, run_batch_seq_error f entries⟩
  · show (run_batch_async f started entries).2 = none ↔ _
    rw [run_batch_async]
    simp only [List.findSome?_eq_none_iff]
    constructor
    · intro h a ha
      have h2 := h a ha
      cases hfa : f a with
      | error e =>
        rw [hfa] at h2
        simp at h2
      | ok b => simp [except_is_ok, hfa]
    · intro h a ha
      have h2 := h a ha
      cases hfa : f a with
      | error e =>
        rw [hfa] at h2
        simp [except_is_ok] at h2
      | ok b =>
        rfl
  · intro a b ha hfa
    exact List.mem_append_left _ (List.mem_filterMap.mpr ⟨a, ha, by rw [hfa]⟩)
  · show ((entries.takeWhile (fun x => except_is_ok (f x))).filterMap (fun a =>
        match f a with
        | Except.ok b => some (a, b)
        | Except.error _ => none) ++
      ((entries.dropWhile (fun x => except_is_ok (f x))).drop 1).filterMap
        (fun _ => none)) = _
    rw [List.filterMap_eq_nil_iff.mpr (fun a _ => rfl), List.append_nil]

/-- Witness for the amended C4 at a concrete two-entry batch whose second
entry fails. -/
theorem c4_batch_error_propagation_witness :
    (1, 1) ∈ (updatechecker_batch true c4_fail_first (fun _ => false) [1, 0]).1 ∧
    (updatechecker_batch false c4_fail_first (fun _ => false) [0, 1]).1.map Prod.fst =
      List.takeWhile (fun a => except_is_ok (c4_fail_first a)) [0, 1] :=
  ⟨(c4_batch_error_propagation c4_fail_first (fun _ => false) [1, 0]).2.1 1 1
      (by decide) rfl,
   (c4_batch_error_propagation c4_fail_first (fun _ => false) [0, 1]).2.2.2.1⟩

/-!  Transfer strategy selection. -/

/-- C7 counterexample: with chunked_download explicitly True and a probed
size of 5 bytes the engine takes the single stream path, so an explicit True
is not honored. -/
theorem c7_counterexample :
    select_strategy (some true) (some 5) true DEFAULT_CHUNK_SIZE = Strategy.single ∧
    Strategy.single ≠ Strategy.chunked := by
  decide

/-- C7 (amended): an explicit False is always honored; an explicit True
yields a chunked transfer only when the probed size is known, at least the
chunk size, and the server advertises range support, degrading to single
stream otherwise; an unset flag chunks exactly when the size is known, at
least the default threshold and the chunk size, and ranges are supported;
an unknown size always gives single stream, and probe failures surface as
an unknown size or missing range support rather than as a transfer
failure. -/
theorem c7_strategy_selection (size_probe : Option Nat) (ranges_ok : Bool) (cs : Nat) :
    (select_strategy (some false) size_probe ranges_ok cs = Strategy.single) ∧
    (select_strategy (some true) size_probe ranges_ok cs = Strategy.chunked ↔
      ∃ fs, size_probe = some fs ∧ cs ≤ fs ∧ ranges_ok = true) ∧
    (select_strategy none size_probe ranges_ok cs = Strategy.chunked ↔
      ∃ fs, size_probe = some fs ∧ DEFAULT_CHUNK_SIZE ≤ fs ∧ cs ≤ fs ∧ ranges_ok = true) ∧
    (∀ cd : Option Bool, size_probe = none →
      select_strategy cd size_probe ranges_ok cs = Strategy.single) := by
  refine ⟨?_, ?_, ?_, ?_⟩
  · cases size_probe with
    | none => rfl
    | some fs => simp [select_strategy, auto_should_chunk, download_with_httpx_strategy]
  · cases size_probe with
    | none => simp [select_strategy, auto_should_chunk, download_with_httpx_strategy]
    | some fs =>
      simp only [select_strategy, auto_should_chunk, download_with_httpx_strategy]
      by_cases h1 : fs < cs
      · cases ranges_ok <;> simp_all
      · cases ranges_ok <;> simp_all
  · cases size_probe with
    | none => simp [select_strategy, auto_should_chunk, download_with_httpx_strategy]
    | some fs =>
      simp only [select_strategy, auto_should_chunk, download_with_httpx_strategy]
      by_cases h0 : DEFAULT_CHUNK_SIZE ≤ fs
      · by_cases h1 : fs < cs
        · cases ranges_ok <;> simp_all
        · cases ranges_ok <;> simp_all
      · by_cases h1 : fs < cs
        · cases ranges_ok <;> simp_all
        · cases ranges_ok <;> simp_all
  · intro cd h
    subst h
    cases cd with
    | none => rfl
    | some b => rfl

/-- Witness for the amended C7 at a known size of exactly one chunk with
range support. -/
theorem c7_strategy_selection_witness :
    select_strategy (some true) (some DEFAULT_CHUNK_SIZE) true DEFAULT_CHUNK_SIZE =
      Strategy.chunked ∧
    select_strategy (some false) (some DEFAULT_CHUNK_SIZE) true DEFAULT_CHUNK_SIZE =
      Strategy.single :=
  ⟨(c7_strategy_selection (some DEFAULT_CHUNK_SIZE) true DEFAULT_CHUNK_SIZE).2.1.mpr
      ⟨DEFAULT_CHUNK_SIZE, rfl, le_refl _, rfl⟩,
   (c7_strategy_selection (some DEFAULT_CHUNK_SIZE) true DEFAULT_CHUNK_SIZE).1⟩

/-!  The update pipeline. -/

/-- C5: evaluation of the replace stage at the locked target scenario.  With
the default kill_if_locked value False, which an entry without that field
configured carries, the pipeline does not abort with a warning: the None
test fails and the process lookup raises a TypeError, leaving the target
untouched.  The clean warning abort happens only for an explicit null. -/
theorem c5_locked_no_kill_evaluation :
    process_entry_model false c5_entry_default c5_env =
      ⟨POutcome.raisedTypeError, true, false, false, false⟩ ∧
    process_entry_model false c5_entry_null c5_env =
      ⟨POutcome.lockedAbortWarning, true, false, false, false⟩ :=
  ⟨rfl, rfl⟩

/-- C9: with force the pipeline result does not depend on the staleness
oracle answer at all, and a matching hash is not treated as no-change: for
an existing target whose backup rename succeeds the pipeline reaches
Replace and replaces the target even when the local and remote hashes
coincide. -/
theorem c9_force_reaches_replace (e : EntryCfg) (te : Bool) (s1 s2 : Option Bool)
    (tmd5 rmd5 tok : String) (ren phe : Bool) (pra : String → Bool)
    (hex : te = true) (hren : ren = true) (hsame : tmd5 = rmd5) :
    process_entry_model true e ⟨te, s1, tmd5, rmd5, tok, ren, phe, pra⟩ =
      process_entry_model true e ⟨te, s2, tmd5, rmd5, tok, ren, phe, pra⟩ ∧
    (process_entry_model true e ⟨te, s1, tmd5, rmd5, tok, ren, phe, pra⟩).outcome =
      POutcome.replaced ∧
    (process_entry_model true e ⟨te, s1, tmd5, rmd5, tok, ren, phe, pra⟩).reached_replace =
      true ∧
    (process_entry_model true e ⟨te, s1, tmd5, rmd5, tok, ren, phe, pra⟩).target_replaced =
      true := by
  subst hex hren
  unfold process_entry_model
  simp

/-- Witness for C9 at a concrete entry and environment whose hashes are
byte-identical and whose oracle would have answered up to date. -/
theorem c9_force_reaches_replace_witness :
    (process_entry_model true (⟨"u", none, none, KillCfg.pyFalse, false⟩ : EntryCfg)
        ⟨true, some false, "m", "m", "", true, false, fun _ => false⟩).outcome =
      POutcome.replaced :=
  (c9_force_reaches_replace ⟨"u", none, none, KillCfg.pyFalse, false⟩ true
    (some false) none "m" "m" "" true false (fun _ => false) rfl rfl rfl).2.1

/-!  Decimal file names and their injectivity. -/

theorem dec_digit_char_toNat (d : Nat) (h : d < 10) : (dec_digit_char d).toNat = 48 + d := by
  interval_cases d <;> decide

theorem dec_digits_aux_foldl (fuel : Nat) : ∀ n init, n < fuel →
    List.foldl (fun acc c => acc * 10 + (c.toNat - 48)) init (dec_digits_aux fuel n) =
      init * 10 ^ (dec_digits_aux fuel n).length + n := by
  induction fuel with
  | zero =>
    intro n init h
    omega
  | succ fuel ih =>
    intro n init h
    by_cases h10 : n < 10
    · simp only [dec_digits_aux, if_pos h10, List.foldl_cons, List.foldl_nil,
        List.length_cons, List.length_nil]
      rw [dec_digit_char_toNat n h10]
      have h1 : 48 + n - 48 = n := by omega
      rw [h1, pow_one]
    · simp only [dec_digits_aux, if_neg h10]
      rw [List.foldl_append]
      have hdiv : n / 10 < fuel := by
        have : n / 10 < n := Nat.div_lt_self (by omega) (by omega)
        omega
      rw [ih (n / 10) init hdiv]
      simp only [List.foldl_cons, List.foldl_nil, List.length_append, List.length_cons,
        List.length_nil]
      rw [dec_digit_char_toNat (n % 10) (Nat.mod_lt _ (by omega))]
      have h1 : 48 + n % 10 - 48 = n % 10 := by omega
      have h2 : 10 * (n / 10) + n % 10 = n := Nat.div_add_mod n 10
      have h3 : init * 10 ^ ((dec_digits_aux fuel (n / 10)).length + (0 + 1)) =
          init * 10 ^ (dec_digits_aux fuel (n / 10)).length * 10 := by ring
      rw [h1, h3]
      generalize init * 10 ^ (dec_digits_aux fuel (n / 10)).length = A
      omega

theorem dec_val_dec_digits (n : Nat) : dec_val (dec_digits n) = n := by
  unfold dec_val dec_digits
  rw [dec_digits_aux_foldl (n + 1) n 0 (Nat.lt_succ_self n)]
  simp

theorem dec_val_replicate_zero (k : Nat) (cs : List Char) :
    dec_val (List.replicate k (dec_digit_char 0) ++ cs) = dec_val cs := by
  induction k with
  | zero => simp
  | succ k ih =>
    simp only [List.replicate_succ, List.cons_append, dec_val, List.foldl_cons]
    have h0 : 0 * 10 + ((dec_digit_char 0).toNat - 48) = 0 := by decide
    rw [h0]
    exact ih

theorem dec_val_py_format04 (n : Nat) : dec_val (py_format04 n).data = n := by
  show dec_val (List.replicate (4 - (dec_digits n).length) (dec_digit_char 0) ++
    dec_digits n) = n
  rw [dec_val_replicate_zero, dec_val_dec_digits]

theorem chunk_file_name_inj (i j : Nat) (h : chunk_file_name i = chunk_file_name j) :
    i = j := by
  have hdata : ("chunk_").data ++ (py_format04 i).data =
      ("chunk_").data ++ (py_format04 j).data := congrArg String.data h
  have h2 := (List.append_inj hdata rfl).2
  have hi := dec_val_py_format04 i
  have hj := dec_val_py_format04 j
  rw [← hi, ← hj, h2]

/-!  The parallel download fallback. -/

theorem collect_chunk_results_error (net : Nat → ChunkNet) (i0 : Nat) :
    ∀ len s acc, s ≤ i0 → i0 < s + len →
      (∀ j, s ≤ j → j < i0 → (chunk_ok_bytes (net j)).isSome) →
      chunk_ok_bytes (net i0) = none →
      collect_chunk_results net (List.range' s len) acc =
        Except.error (acc ++ (List.range' s (i0 - s)).map
          (fun i => (chunk_file_name i, (chunk_ok_bytes (net i)).getD []))) := by
  intro len
  induction len with
  | zero =>
    intro s acc h1 h2 h3 h4
    omega
  | succ len ih =>
    intro s acc h1 h2 h3 h4
    rw [show List.range' s (len + 1) = s :: List.range' (s + 1) len from rfl]
    by_cases hs : s = i0
    · subst hs
      simp only [collect_chunk_results, h4]
      simp
    · have hs2 : s < i0 := by omega
      have hsome : (chunk_ok_bytes (net s)).isSome := h3 s (le_refl s) hs2
      obtain ⟨b, hb⟩ := Option.isSome_iff_exists.mp hsome
      simp only [collect_chunk_results, hb]
      rw [ih (s + 1) (acc ++ [(chunk_file_name s, b)]) (by omega) (by omega)
        (fun j hj1 hj2 => h3 j (by omega) hj2) h4]
      congr 1
      rw [List.append_assoc]
      congr 1
      rw [show i0 - s = (i0 - (s + 1)) + 1 from by omega]
      rw [show List.range' s ((i0 - (s + 1)) + 1) =
        s :: List.range' (s + 1) (i0 - (s + 1)) from rfl]
      simp [hb]

theorem option_filter_some {γ : Type} (p : γ → Bool) (x : γ) :
    Option.filter p (some x) = if p x then some x else none := rfl

theorem contains_chunk_name (i0 i : Nat) :
    ((List.range i0).map chunk_file_name).contains (chunk_file_name i) =
      decide (i < i0) := by
  by_cases h : i < i0
  · rw [decide_eq_true h]
    exact List.elem_iff.mpr (List.mem_map.mpr ⟨i, List.mem_range.mpr h, rfl⟩)
  · rw [decide_eq_false h]
    by_contra hc
    have hc2 : ((List.range i0).map chunk_file_name).contains (chunk_file_name i) = true := by
      revert hc
      cases ((List.range i0).map chunk_file_name).contains (chunk_file_name i) <;> simp
    have hmem : chunk_file_name i ∈ (List.range i0).map chunk_file_name :=
      List.elem_iff.mp hc2
    obtain ⟨j, hj, hname⟩ := List.mem_map.mp hmem
    have hij := chunk_file_name_inj j i hname
    rw [List.mem_range] at hj
    omega

/-- C6 counterexample: three chunks, chunk 0 succeeds, chunk 1 fails before
its file is created, chunk 2 succeeds as its worker runs to completion; the
engine cleans up only the collected prefix and falls back, leaving the chunk
2 temporary file behind, so not all produced chunk files are discarded. -/
theorem c6_counterexample :
    (download_parallel_model 3 1 c6_net [7, 8, 9]).leftover =
      [(chunk_file_name 2, [9])] ∧
    (download_parallel_model 3 1 c6_net [7, 8, 9]).leftover ≠ [] ∧
    (download_parallel_model 3 1 c6_net [7, 8, 9]).dest = [7, 8, 9] ∧
    (download_parallel_model 3 1 c6_net [7, 8, 9]).demoted = true := by
  refine ⟨?_, ?_, ?_, ?_⟩ <;> decide

/-- C6 (amended): when chunk i0 is the first failing chunk, the engine
discards exactly the temporary files of the successfully collected chunks
before i0, performs the full single-stream fallback once, issues exactly one
ranged request per chunk with no individual retry, and the files written by
the failing worker or by later workers remain on disk. -/
theorem c6_chunk_failure_fallback (fs cs : Nat) (net : Nat → ChunkNet)
    (sr : List Nat) (i0 : Nat)
    (h1 : i0 < (calculate_chunks fs cs).length)
    (h2 : ∀ j, j < i0 → (chunk_ok_bytes (net j)).isSome)
    (h3 : chunk_ok_bytes (net i0) = none) :
    (download_parallel_model fs cs net sr).dest = sr ∧
    (download_parallel_model fs cs net sr).demoted = true ∧
    (download_parallel_model fs cs net sr).full_requests = 1 ∧
    (download_parallel_model fs cs net sr).range_requests = calculate_chunks fs cs ∧
    (download_parallel_model fs cs net sr).leftover =
      (List.range (calculate_chunks fs cs).length).filterMap
        (fun i => if i0 ≤ i then
          (chunk_written (net i)).map (fun b => (chunk_file_name i, b)) else none) := by
  have hcollect : collect_chunk_results net
      (List.range (calculate_chunks fs cs).length) [] =
      Except.error ((List.range i0).map
        (fun i => (chunk_file_name i, (chunk_ok_bytes (net i)).getD []))) := by
    rw [List.range_eq_range']
    rw [collect_chunk_results_error net i0 (calculate_chunks fs cs).length 0 []
      (Nat.zero_le i0) (by omega) (fun j hj1 hj2 => h2 j hj2) h3]
    rw [Nat.sub_zero, ← List.range_eq_range', List.nil_append]
  have hmodel : download_parallel_model fs cs net sr =
      ⟨sr, files_minus (written_chunk_files net (calculate_chunks fs cs).length)
        (((List.range i0).map
          (fun i => (chunk_file_name i, (chunk_ok_bytes (net i)).getD []))).map Prod.fst),
        true, calculate_chunks fs cs, 1⟩ := by
    simp only [download_parallel_model]
    rw [hcollect]
  rw [hmodel]
  refine ⟨rfl, rfl, rfl, rfl, ?_⟩
  show files_minus _ _ = _
  have hnames : (((List.range i0).map
      (fun i => (chunk_file_name i, (chunk_ok_bytes (net i)).getD []))).map Prod.fst) =
      (List.range i0).map chunk_file_name := by
    rw [List.map_map]
    rfl
  rw [hnames]
  unfold files_minus written_chunk_files
  rw [List.filter_filterMap]
  apply List.filterMap_congr
  intro i _
  cases hw : chunk_written (net i) with
  | none =>
    rw [Option.map_none']
    by_cases hi : i0 ≤ i <;> simp [hi, Option.filter]
  | some b =>
    rw [Option.map_some']
    have hp : (!(((List.range i0).map chunk_file_name).contains (chunk_file_name i))) =
        decide (i0 ≤ i) := by
      rw [contains_chunk_name i0 i]
      by_cases hi : i0 ≤ i
      · rw [decide_eq_true hi, decide_eq_false (show ¬ (i < i0) by omega)]
        rfl
      · rw [decide_eq_false hi, decide_eq_true (show i < i0 by omega)]
        rfl
    show (if (!(((List.range i0).map chunk_file_name).contains (chunk_file_name i))) = true
        then some (chunk_file_name i, b) else none) =
      if i0 ≤ i then some (chunk_file_name i, b) else none
    rw [hp]
    by_cases hi : i0 ≤ i <;> simp [hi]

/-- Witness for the amended C6 at a two-chunk job whose first chunk fails
before writing. -/
theorem c6_chunk_failure_fallback_witness :
    (download_parallel_model 2 1 c6_witness_net [5]).dest = [5] ∧
    (download_parallel_model 2 1 c6_witness_net [5]).demoted = true :=
  ⟨(c6_chunk_failure_fallback 2 1 c6_witness_net [5] 0 (by decide)
      (fun j hj => absurd hj (Nat.not_lt_zero j)) rfl).1,
   (c6_chunk_failure_fallback 2 1 c6_witness_net [5] 0 (by decide)
      (fun j hj => absurd hj (Nat.not_lt_zero j)) rfl).2.1⟩

/-!  Order properties of the lexicographic path comparison. -/

theorem chars_lt_asymm : ∀ a b : List Char, chars_lt a b = true → chars_lt b a = false := by
  intro a
  induction a with
  | nil =>
    intro b h
    cases b with
    | nil => simp [chars_lt] at h
    | cons x xs => simp [chars_lt]
  | cons x xs ih =>
    intro b h
    cases b with
    | nil => simp [chars_lt] at h
    | cons y ys =>
      simp only [chars_lt] at h ⊢
      by_cases h1 : x.toNat < y.toNat
      · rw [if_neg (show ¬ y.toNat < x.toNat by omega), if_pos h1]
      · by_cases h2 : y.toNat < x.toNat
        · rw [if_neg h1, if_pos h2] at h
          exact absurd h (by simp)
        · rw [if_neg h1, if_neg h2] at h
          rw [if_neg h2, if_neg h1]
          exact ih ys h

theorem chars_lt_cotrans : ∀ x z y : List Char,
    chars_lt x z = true → chars_lt x y = true ∨ chars_lt y z = true := by
  intro x
  induction x with
  | nil =>
    intro z y h
    cases z with
    | nil => simp [chars_lt] at h
    | cons c cs =>
      cases y with
      | nil => right; simp [chars_lt]
      | cons d ds => left; simp [chars_lt]
  | cons a as ih =>
    intro z y h
    cases z with
    | nil => simp [chars_lt] at h
    | cons c cs =>
      cases y with
      | nil =>
        right
        simp [chars_lt]
      | cons d ds =>
        simp only [chars_lt] at h ⊢
        by_cases h1 : a.toNat < c.toNat
        · by_cases h2 : a.toNat < d.toNat
          · left
            rw [if_pos h2]
          · right
            rw [if_pos (show d.toNat < c.toNat by omega)]
        · by_cases h2 : c.toNat < a.toNat
          · rw [if_neg h1, if_pos h2] at h
            exact absurd h (by simp)
          · rw [if_neg h1, if_neg h2] at h
            by_cases h3 : a.toNat < d.toNat
            · left
              rw [if_pos h3]
            · by_cases h4 : d.toNat < a.toNat
              · right
                rw [if_pos (show d.toNat < c.toNat by omega)]
              · rcases ih cs ds h with h5 | h5
                · left
                  rw [if_neg h3, if_neg h4]
                  exact h5
                · right
                  rw [if_neg (show ¬ d.toNat < c.toNat by omega),
                    if_neg (show ¬ c.toNat < d.toNat by omega)]
                  exact h5

theorem file_le_trans (a b c : String × List Nat)
    (h1 : py_str_le a.1 b.1 = true) (h2 : py_str_le b.1 c.1 = true) :
    py_str_le a.1 c.1 = true := by
  unfold py_str_le at h1 h2 ⊢
  have hba : chars_lt b.1.data a.1.data = false := by
    revert h1
    cases chars_lt b.1.data a.1.data <;> simp
  have hcb : chars_lt c.1.data b.1.data = false := by
    revert h2
    cases chars_lt c.1.data b.1.data <;> simp
  by_contra hcon
  have hca : chars_lt c.1.data a.1.data = true := by
    revert hcon
    cases chars_lt c.1.data a.1.data <;> simp
  rcases chars_lt_cotrans c.1.data a.1.data b.1.data hca with h | h
  · rw [hcb] at h
    exact absurd h (by simp)
  · rw [hba] at h
    exact absurd h (by simp)

theorem file_le_total (a b : String × List Nat) :
    (py_str_le a.1 b.1 || py_str_le b.1 a.1) = true := by
  unfold py_str_le
  by_cases h : chars_lt b.1.data a.1.data = true
  · rw [h, chars_lt_asymm _ _ h]
    rfl
  · have hf : chars_lt b.1.data a.1.data = false := by
      revert h
      cases chars_lt b.1.data a.1.data <;> simp
    rw [hf]
    rfl

/-!  Concatenation of uniform length blocks. -/

theorem flatten_const_length {γ : Type} (k : Nat) :
    ∀ l : List (List γ), (∀ x ∈ l, x.length = k) → l.flatten.length = k * l.length := by
  intro l
  induction l with
  | nil =>
    intro h
    simp
  | cons x t ih =>
    intro h
    simp only [List.flatten_cons, List.length_append, List.length_cons]
    rw [ih (fun y hy => h y (List.mem_cons_of_mem x hy)), h x (List.mem_cons_self x t)]
    ring

theorem flatten_slice {γ : Type} (k : Nat) :
    ∀ (l : List (List γ)) (i : Nat) (hi : i < l.length),
      (∀ x ∈ l, x.length = k) → ((l.flatten).drop (k * i)).take k = l.get ⟨i, hi⟩ := by
  intro l
  induction l with
  | nil =>
    intro i hi
    simp at hi
  | cons x t ih =>
    intro i hi h
    cases i with
    | zero =>
      simp only [List.flatten_cons, Nat.mul_zero, List.drop_zero]
      rw [show k = x.length from (h x (List.mem_cons_self x t)).symm, List.take_left]
      rfl
    | succ i =>
      simp only [List.flatten_cons]
      have hx : x.length = k := h x (List.mem_cons_self x t)
      have hdrop : ((x ++ t.flatten).drop (k * (i + 1))) = t.flatten.drop (k * i) := by
        rw [show k * (i + 1) = x.length + k * i by rw [hx]; ring]
        exact List.drop_append _
      rw [hdrop, ih i (by simpa using hi) (fun y hy => h y (List.mem_cons_of_mem x hy))]
      rfl

theorem flatten_inj_const_length {γ : Type} (k : Nat) (hk : 0 < k) :
    ∀ l1 l2 : List (List γ), (∀ x ∈ l1, x.length = k) → (∀ x ∈ l2, x.length = k) →
      l1.flatten = l2.flatten → l1 = l2 := by
  intro l1
  induction l1 with
  | nil =>
    intro l2 h1 h2 h
    cases l2 with
    | nil => rfl
    | cons y s =>
      exfalso
      have hy : y.length = k := h2 y (List.mem_cons_self y s)
      have hl := congrArg List.length h
      simp only [List.flatten_nil, List.length_nil, List.flatten_cons,
        List.length_append] at hl
      omega
  | cons x t ih =>
    intro l2 h1 h2 h
    cases l2 with
    | nil =>
      exfalso
      have hx : x.length = k := h1 x (List.mem_cons_self x t)
      have hl := congrArg List.length h
      simp only [List.flatten_nil, List.length_nil, List.flatten_cons,
        List.length_append] at hl
      omega
    | cons y s =>
      simp only [List.flatten_cons] at h
      have hx : x.length = k := h1 x (List.mem_cons_self x t)
      have hy : y.length = k := h2 y (List.mem_cons_self y s)
      have hxy := List.append_inj h (by omega)
      have ht : t = s := ih s (fun z hz => h1 z (List.mem_cons_of_mem x hz))
        (fun z hz => h2 z (List.mem_cons_of_mem y hz)) hxy.2
      rw [hxy.1, ht]

/-!  Recursive shape of the chunk partition and the slice round trip. -/

theorem calculate_chunks_step (fs cs : Nat) (hcs : 0 < cs) (h : cs < fs) :
    calculate_chunks fs cs =
      (0, cs - 1) :: (calculate_chunks (fs - cs) cs).map (fun r => (r.1 + cs, r.2 + cs)) := by
  have hfs0 : 0 < fs := by omega
  have hfc0 : 0 < fs - cs := by omega
  rw [calculate_chunks_eq_map fs cs hfs0 hcs, calculate_chunks_eq_map (fs - cs) cs hfc0 hcs]
  have hn : (fs + cs - 1) / cs = ((fs - cs) + cs - 1) / cs + 1 := by
    have e1 : fs + cs - 1 = ((fs - cs) + cs - 1) + cs := by omega
    rw [e1, Nat.add_div_right _ hcs]
  rw [hn, List.range_succ_eq_map]
  simp only [List.map_cons, List.map_map]
  congr 1
  · show ((0 * cs : Nat), min (0 * cs + cs - 1) (fs - 1)) = (0, cs - 1)
    simp only [Nat.zero_mul, Nat.zero_add]
    rw [show min (cs - 1) (fs - 1) = cs - 1 by omega]
  · apply List.map_congr_left
    intro i hi
    show ((i + 1) * cs, min ((i + 1) * cs + cs - 1) (fs - 1)) =
      (i * cs + cs, min (i * cs + cs - 1) ((fs - cs) - 1) + cs)
    have e1 : (i + 1) * cs = i * cs + cs := by ring
    rw [e1]
    congr 1
    generalize i * cs = A
    omega

theorem join_slices {γ : Type} (cs : Nat) (hcs : 0 < cs) :
    ∀ fs (original : List γ), original.length = fs →
      ((calculate_chunks fs cs).map
        (fun r => (original.drop r.1).take (r.2 - r.1 + 1))).flatten = original := by
  intro fs
  induction fs using Nat.strong_induction_on with
  | _ fs ih =>
    intro original hlen
    by_cases h0 : fs = 0
    · subst h0
      simp only [calculate_chunks, if_pos rfl, List.map_nil, List.flatten_nil]
      exact (List.length_eq_zero.mp hlen).symm
    · by_cases h1 : fs ≤ cs
      · rw [calculate_chunks_single fs cs (by omega) h1]
        simp only [List.map_cons, List.map_nil, List.flatten_cons, List.flatten_nil,
          List.append_nil, List.drop_zero]
        rw [show fs - 1 - 0 + 1 = fs by omega, ← hlen, List.take_length]
      · rw [calculate_chunks_step fs cs hcs (by omega)]
        simp only [List.map_cons, List.flatten_cons, List.map_map]
        rw [List.drop_zero, show cs - 1 - 0 + 1 = cs by omega]
        have htail : ((calculate_chunks (fs - cs) cs).map
            ((fun r : Nat × Nat => (original.drop r.1).take (r.2 - r.1 + 1)) ∘
              (fun r : Nat × Nat => (r.1 + cs, r.2 + cs)))) =
            ((calculate_chunks (fs - cs) cs).map
              (fun r => ((original.drop cs).drop r.1).take (r.2 - r.1 + 1))) := by
          apply List.map_congr_left
          intro r hr
          show (original.drop (r.1 + cs)).take (r.2 + cs - (r.1 + cs) + 1) = _
          rw [show r.2 + cs - (r.1 + cs) + 1 = r.2 - r.1 + 1 by omega, List.drop_drop,
            show cs + r.1 = r.1 + cs by omega]
        rw [htail]
        have hdlen : (original.drop cs).length = fs - cs := by
          rw [List.length_drop, hlen]
        rw [ih (fs - cs) (by omega) (original.drop cs) hdlen]
        exact List.take_append_drop cs original

theorem map_range_enum {γ : Type} (f : Nat → γ) (n : Nat) :
    ((List.range n).map f).enum = (List.range n).map (fun i => (i, f i)) := by
  apply List.ext_getElem
  · simp [List.enum_length]
  · intro i h1 h2
    simp only [List.enum_length, List.length_map, List.length_range] at h1 h2
    rw [List.getElem_enum, List.getElem_map, List.getElem_map, List.getElem_range]

theorem partition_files_snd (original : List Nat) (cs : Nat) :
    (partition_files original cs).map Prod.snd =
      (calculate_chunks original.length cs).map
        (fun r => (original.drop r.1).take (r.2 - r.1 + 1)) := by
  unfold partition_files
  rw [List.map_map]
  rw [show (Prod.snd ∘ (fun p : Nat × (Nat × Nat) =>
        (chunk_file_name p.1, (original.drop p.2.1).take (p.2.2 - p.2.1 + 1)))) =
      ((fun r : Nat × Nat => (original.drop r.1).take (r.2 - r.1 + 1)) ∘ Prod.snd)
    from rfl]
  rw [← List.map_map, List.enum_map_snd]

/-- C8 (amended): combine_chunks concatenates the chunk files in ascending
file name order, which is chunk index order whenever the file names happen
to be lexicographically increasing, as the four digit zero padded names are
for at most 10000 chunks; under that proviso the destination equals the
original byte sequence exactly, and every temporary chunk file is deleted
afterwards. -/
theorem c8_combine_round_trip (original : List Nat) (cs : Nat) (hcs : 0 < cs)
    (hsorted : List.Pairwise
      (fun a b : String × List Nat => chars_lt a.1.data b.1.data = true)
      (partition_files original cs)) :
    (combine_chunks (partition_files original cs)).1 = original ∧
    (combine_chunks (partition_files original cs)).2 =
      (partition_files original cs).map Prod.fst := by
  constructor
  · have hle : List.Pairwise
        (fun a b : String × List Nat => (py_str_le a.1 b.1) = true)
        (partition_files original cs) := by
      apply List.Pairwise.imp ?_ hsorted
      intro a b hab
      unfold py_str_le
      rw [chars_lt_asymm _ _ hab]
      rfl
    show (((partition_files original cs).mergeSort
      (fun a b => py_str_le a.1 b.1)).map Prod.snd).flatten = original
    rw [List.mergeSort_of_sorted hle, partition_files_snd]
    exact join_slices cs hcs original.length original rfl
  · rfl

/-- Witness for the amended C8 at a three byte buffer split into one byte
chunks. -/
theorem c8_combine_round_trip_witness :
    (combine_chunks (partition_files [5, 6, 7] 1)).1 = [5, 6, 7] :=
  (c8_combine_round_trip [5, 6, 7] 1 (by decide) (by decide)).1

/-!  The claim C8 instance with 10001 chunks. -/

theorem ex8_original_length : ex8_original.length = 20002 := by
  have hall : ∀ x ∈ (List.range 10001).map ex8_pair, x.length = 2 := by
    intro x hx
    obtain ⟨i, hi, rfl⟩ := List.mem_map.mp hx
    rfl
  unfold ex8_original
  rw [flatten_const_length 2 _ hall]
  simp

theorem ex8_chunks :
    calculate_chunks 20002 2 = (List.range 10001).map (fun i => (2 * i, 2 * i + 1)) := by
  rw [calculate_chunks_eq_map 20002 2 (by omega) (by omega)]
  rw [show (20002 + 2 - 1) / 2 = 10001 from by norm_num]
  apply List.map_congr_left
  intro i hi
  rw [List.mem_range] at hi
  show (i * 2, min (i * 2 + 2 - 1) (20002 - 1)) = (2 * i, 2 * i + 1)
  have h2 : min (i * 2 + 2 - 1) (20002 - 1) = 2 * i + 1 := by omega
  rw [h2, show i * 2 = 2 * i by ring]

theorem ex8_slice (i : Nat) (hi : i < 10001) :
    (ex8_original.drop (2 * i)).take 2 = ex8_pair i := by
  have hall : ∀ x ∈ (List.range 10001).map ex8_pair, x.length = 2 := by
    intro x hx
    obtain ⟨j, hj, rfl⟩ := List.mem_map.mp hx
    rfl
  have hlen : ((List.range 10001).map ex8_pair).length = 10001 := by simp
  have hs := flatten_slice 2 ((List.range 10001).map ex8_pair) i (by omega) hall
  unfold ex8_original
  rw [hs, List.get_eq_getElem, List.getElem_map, List.getElem_range]

theorem ex8_files_eq : partition_files ex8_original 2 = ex8_files := by
  unfold partition_files
  rw [ex8_original_length, ex8_chunks, map_range_enum, List.map_map]
  unfold ex8_files
  apply List.map_congr_left
  intro i hi
  rw [List.mem_range] at hi
  show (chunk_file_name i, (ex8_original.drop (2 * i)).take (2 * i + 1 - (2 * i) + 1)) =
    ex8_file i
  rw [show 2 * i + 1 - (2 * i) + 1 = 2 by omega, ex8_slice i hi]
  rfl

/-- C8 counterexample: for the partition of a 20002 byte buffer into 10001
two byte chunks, combine_chunks does not reproduce the original sequence:
sorted() orders the path chunk_10000 between chunk_1000 and chunk_1001, so
the concatenation in ascending file name order differs from the ascending
chunk index order that the claim asserts. -/
theorem c8_counterexample :
    ¬ ((combine_chunks (partition_files ex8_original 2)).1 = ex8_original) := by
  rw [ex8_files_eq]
  intro hcombine
  have h1 : ((ex8_files.mergeSort (fun a b => py_str_le a.1 b.1)).map Prod.snd).flatten =
      ex8_original := hcombine
  have hperm := List.mergeSort_perm ex8_files (fun a b => py_str_le a.1 b.1)
  have hsorted2 : List.Pairwise (fun a b : String × List Nat => py_str_le a.1 b.1 = true)
      (ex8_files.mergeSort (fun a b => py_str_le a.1 b.1)) :=
    List.sorted_mergeSort (fun a b c hab hbc => file_le_trans a b c hab hbc)
      (fun a b => file_le_total a b) ex8_files
  have hlenS2 : ∀ y ∈ (ex8_files.mergeSort (fun a b => py_str_le a.1 b.1)).map Prod.snd,
      y.length = 2 := by
    intro y hy
    obtain ⟨x, hx, rfl⟩ := List.mem_map.mp hy
    obtain ⟨j, hj, rfl⟩ := List.mem_map.mp (hperm.mem_iff.mp hx)
    rfl
  have hlenF2 : ∀ y ∈ ex8_files.map Prod.snd, y.length = 2 := by
    intro y hy
    obtain ⟨x, hx, rfl⟩ := List.mem_map.mp hy
    obtain ⟨j, hj, rfl⟩ := List.mem_map.mp hx
    rfl
  have hflatF : (ex8_files.map Prod.snd).flatten = ex8_original := by
    unfold ex8_files ex8_original
    rw [List.map_map]
    rfl
  have hsnd : (ex8_files.mergeSort (fun a b => py_str_le a.1 b.1)).map Prod.snd =
      ex8_files.map Prod.snd :=
    flatten_inj_const_length 2 (by omega) _ _ hlenS2 hlenF2 (by rw [h1, hflatF])
  have hlenfiles : ex8_files.length = 10001 := by simp [ex8_files]
  have hlenS : (ex8_files.mergeSort (fun a b => py_str_le a.1 b.1)).length = 10001 := by
    rw [hperm.length_eq, hlenfiles]
  have hat : ∀ p, p < 10001 →
      (ex8_files.mergeSort (fun a b => py_str_le a.1 b.1))[p]? = some (ex8_file p) := by
    intro p hp
    have hpS : p < (ex8_files.mergeSort (fun a b => py_str_le a.1 b.1)).length := by omega
    obtain ⟨x, hx⟩ : ∃ x,
        (ex8_files.mergeSort (fun a b => py_str_le a.1 b.1))[p]? = some x := by
      refine ⟨(ex8_files.mergeSort (fun a b => py_str_le a.1 b.1))[p], ?_⟩
      rw [List.getElem?_eq_some]
      exact ⟨hpS, rfl⟩
    have hfp : ex8_files[p]? = some (ex8_file p) := by
      unfold ex8_files
      rw [List.getElem?_map, List.getElem?_range hp]
      rfl
    have hxsnd : x.2 = ex8_pair p := by
      have e := congrArg (fun l => l[p]?) hsnd
      simp only [List.getElem?_map] at e
      rw [hx, hfp] at e
      simpa [ex8_file] using e
    have hxmem : x ∈ ex8_files := by
      apply hperm.mem_iff.mp
      rw [List.mem_iff_getElem?]
      exact ⟨p, hx⟩
    obtain ⟨j, hj, hxj⟩ := List.mem_map.mp hxmem
    rw [List.mem_range] at hj
    have hpay : ex8_pair j = ex8_pair p := by
      have hstep : (ex8_file j).2 = ex8_pair p := by rw [hxj, hxsnd]
      exact hstep
    have hjp : j = p := by
      unfold ex8_pair at hpay
      simp only [List.cons.injEq, and_true] at hpay
      obtain ⟨hdiv, hmod⟩ := hpay
      omega
    rw [hx, ← hxj, hjp]
  have hmem10000 : ex8_file 10000 ∈ ex8_files.mergeSort (fun a b => py_str_le a.1 b.1) := by
    apply hperm.mem_iff.mpr
    exact List.mem_map.mpr ⟨10000, List.mem_range.mpr (by omega), rfl⟩
  obtain ⟨q, hq⟩ := List.mem_iff_getElem?.mp hmem10000
  obtain ⟨hqlt, hqe⟩ := List.getElem?_eq_some.mp hq
  have hpw := List.pairwise_iff_getElem.mp hsorted2
  have dA : py_str_le (chunk_file_name 10000) (chunk_file_name 1000) = false := by decide
  have dB : py_str_le (chunk_file_name 1001) (chunk_file_name 10000) = false := by decide
  obtain ⟨hb1000, he1000⟩ := List.getElem?_eq_some.mp (hat 1000 (by omega))
  obtain ⟨hb1001, he1001⟩ := List.getElem?_eq_some.mp (hat 1001 (by omega))
  rcases Nat.lt_trichotomy q 1000 with hcase | hcase | hcase
  · have hrel := hpw q 1000 hqlt hb1000 hcase
    rw [hqe, he1000] at hrel
    have hx : py_str_le (chunk_file_name 10000) (chunk_file_name 1000) = true := hrel
    rw [hx] at dA
    simp at dA
  · subst hcase
    have heq := hqe.symm.trans he1000
    have hinj := chunk_file_name_inj 10000 1000 (congrArg Prod.fst heq)
    omega
  · rcases Nat.lt_trichotomy q 1001 with hcase2 | hcase2 | hcase2
    · omega
    · subst hcase2
      have heq := hqe.symm.trans he1001
      have hinj := chunk_file_name_inj 10000 1001 (congrArg Prod.fst heq)
      omega
    · have hrel := hpw 1001 q hb1001 hqlt hcase2
      rw [he1001, hqe] at hrel
      have hx : py_str_le (chunk_file_name 1001) (chunk_file_name 10000) = true := hrel
      rw [hx] at dB
      simp at dB
